import Mathlib

/-!
Shallow embedding of the GML netlist backend (`backends/gml/gml.cc`) of
this repository, together with theorems about its behaviour.

The embedding mirrors the `GmlWriter` struct: `sigids` (the lazily filled
bit-identifier table), `sigidcounter` (the per-module identifier counter,
initialised to 2), `sourceBitToIdxMap` / `targetBitToIdxMap` (the ordered
connectivity multimaps), the port / cell node emission loops of
`write_module`, and the per-wire edge emission loop with its single-slot
duplicate suppression.  `write_design` threads the two connectivity maps
across modules exactly as the C++ member fields do (they are never cleared
in `write_module`), while `sigids` and `sigidcounter` are reset per module.

`dict<SigBit, string>` and `std::map<std::string, std::vector<int>>` are
modelled as association lists with ordered insertion; the only operations
the source performs on them are lookup and append-to-entry, so iteration
order of the maps themselves is never observable.  The C++ stores
identifiers as strings: the four constant tokens are the quoted strings
`"0" "1" "z" "x"` and the counter values are decimal numerals, two
disjoint classes of strings, which the inductive type `Ident` reflects
(`Ident.constTok` / `Ident.intId`).  `SigMap` lives in `kernel/sigtools.h`
(not part of the sources under verification); following the specification
of the BitResolver it is modelled as the module-supplied canonicalisation
function `sigmapF`, applied to every bit before identifier assignment.
`Design::sort()` only canonicalises iteration order, so the module / wire /
cell lists of the embedded design are taken to be in post-`sort`
iteration order.
-/

set_option linter.unusedVariables false

namespace Gml

/-- The RTLIL `State` constant values (`S0, S1, Sx, Sz, Sa, Sm`). -/
inductive BState where
  | s0 | s1 | sx | sz | sa | sm
deriving DecidableEq, Repr

/-- A signal bit: either a constant (`bit.wire == nullptr` in the C++) or
bit `offset` of the wire called `wire`. -/
inductive SigBit where
  | const : BState → SigBit
  | bitOf : String → Nat → SigBit
deriving DecidableEq, Repr

/-- A bit identifier as stored in `sigids`.  The C++ stores strings; the
constant tokens are quoted (`"\"0\""` …) while counter values are decimal
numerals, so the two constructors correspond to disjoint sets of strings. -/
inductive Ident where
  | constTok : String → Ident
  | intId : Nat → Ident
deriving DecidableEq, Repr

/-- The token a constant bit is assigned, following the `if` chain in
`get_bits` / `updateIndexMap`: `S0 ↦ "0"`, `S1 ↦ "1"`, `Sz ↦ "z"`, and
everything else (`Sx`, `Sa`, `Sm`) `↦ "x"`. -/
def tokenOfState : BState → Ident
  | .s0 => .constTok "0"
  | .s1 => .constTok "1"
  | .sz => .constTok "z"
  | _ => .constTok "x"

/-- `RTLIL::unescape_id`.  Modelled from the spec: the unescaping half of
the external `unescapeAndQuote` helper (`kernel/rtlil.cc` is not among the
sources under verification); it strips the leading backslash of an
escaped identifier. -/
def unescape_id (s : String) : String :=
  match s.data with
  | '\\' :: rest => String.mk rest
  | _ => s

/-- Hexadecimal digit, upper case (for the `\u%04X` escape). -/
def hexDigit (n : Nat) : Char :=
  if n < 10 then Char.ofNat (48 + n) else Char.ofNat (55 + n)

/-- Four-digit upper-case hexadecimal rendering of a code point < 0x10000. -/
def hex4 (n : Nat) : String :=
  String.mk [hexDigit (n / 4096 % 16), hexDigit (n / 256 % 16),
             hexDigit (n / 16 % 16), hexDigit (n % 16)]

/-- One character of `GmlWriter::get_string`. -/
def escapeChar (c : Char) : String :=
  if c = '\\' then "\\\\"
  else if c = '"' then "\\\""
  else if c = Char.ofNat 8 then "\\b"
  else if c = Char.ofNat 12 then "\\f"
  else if c = '\n' then "\\n"
  else if c = Char.ofNat 13 then "\\r"
  else if c = '\t' then "\\t"
  else if c.toNat < 32 then "\\u" ++ hex4 c.toNat
  else String.singleton c

/-- `GmlWriter::get_string`: quote and escape a string. -/
def get_string (str : String) : String :=
  "\"" ++ String.join (str.toList.map escapeChar) ++ "\""

/-- `GmlWriter::get_name`: unescape an `IdString`, then quote it. -/
def get_name (name : String) : String :=
  get_string (unescape_id name)

/-- An RTLIL wire, with the fields `gml.cc` reads, plus the value the
external selection predicate (`design->selected`) gives for it. -/
structure Wire where
  name : String
  width : Nat
  port_input : Bool
  port_output : Bool
  selected : Bool
deriving DecidableEq, Repr

/-- One named cell connection, with the `c->input`/`c->output` direction
flags of its pin (both may hold for an inout pin). -/
structure Conn where
  port : String
  sig : List SigBit
  isInput : Bool
  isOutput : Bool
deriving DecidableEq, Repr

/-- An RTLIL cell, with the fields `gml.cc` reads. -/
structure Cell where
  name : String
  ctype : String
  selected : Bool
  connections : List Conn
deriving DecidableEq, Repr

/-- An RTLIL module as seen by the writer.  `ports` is the
`module->ports` vector of port wire names; `wires` / `cells` are in
`module->wires()` / `module->cells()` iteration order (post `sort()`);
`sigmapF` is the canonicalisation function `SigMap(module)` computes. -/
structure Module where
  name : String
  ports : List String
  wires : List Wire
  cells : List Cell
  has_processes : Bool
  selected : Bool
  sigmapF : SigBit → SigBit

/-- A design: modules in `design->modules()` iteration order. -/
structure Design where
  modules : List Module

/-- `module->wire(name)`. -/
def wireOf (m : Module) (n : String) : Option Wire :=
  m.wires.find? (fun w => w.name = n)

/-- The ordered connectivity multimap type
(`std::map<std::string, std::vector<int>>`, keyed by identifier). -/
abbrev IdxMap := List (Ident × List Nat)

/-- Lookup in a connectivity map; a missing key reads as the empty list
(`operator[]` default-constructs an empty vector). -/
def mapGet : IdxMap → Ident → List Nat
  | [], _ => []
  | (k', l) :: rest, k => if k' = k then l else mapGet rest k

/-- `map[key].push_back(v)`. -/
def mapPush : IdxMap → Ident → Nat → IdxMap
  | [], k, v => [(k, [v])]
  | (k', l) :: rest, k, v =>
    if k' = k then (k', l ++ [v]) :: rest else (k', l) :: mapPush rest k v

/-- The bit-identifier table `dict<SigBit, string> sigids`. -/
abbrev SigIds := List (SigBit × Ident)

/-- `sigids.count(bit)`-style lookup. -/
def lookupId : SigIds → SigBit → Option Ident
  | [], _ => none
  | (b', i) :: rest, b => if b' = b then some i else lookupId rest b

/-- The lazy identifier assignment shared by `get_bits` (lines 94-104) and
`updateIndexMap` (lines 113-122): if the (already canonicalised) bit has
no entry, a constant gets its fixed token and a wire bit gets the next
counter value; the assigned (or cached) identifier is returned together
with the updated table and counter. -/
def assignBit (b : SigBit) (s : SigIds) (ctr : Nat) : Ident × SigIds × Nat :=
  match lookupId s b with
  | some i => (i, s, ctr)
  | none =>
    match b with
    | .const st => (tokenOfState st, s ++ [(b, tokenOfState st)], ctr)
    | .bitOf _ _ => (.intId ctr, s ++ [(b, .intId ctr)], ctr + 1)

/-- Assign identifiers to a list of canonical bits in order, collecting the
identifier of each bit (the observable content of `get_bits` /
`get_bits_vector`). -/
def assignBits : List SigBit → SigIds → Nat → List Ident × SigIds × Nat
  | [], s, ctr => ([], s, ctr)
  | b :: bs, s, ctr =>
    let r := assignBit b s ctr
    let rest := assignBits bs r.2.1 r.2.2
    (r.1 :: rest.1, rest.2)

/-- The writer state `write_module` threads: `sigids`, `sigidcounter`,
`sourceBitToIdxMap`, `targetBitToIdxMap`. -/
structure MState where
  sigids : SigIds
  sigidcounter : Nat
  srcMap : IdxMap
  tgtMap : IdxMap

/-- The canonicalised bits of a whole wire, LSB first
(`sigmap(SigSpec(w))`). -/
def sigBitsOfWire (m : Module) (w : Wire) : List SigBit :=
  (List.range w.width).map (fun i => m.sigmapF (.bitOf w.name i))

/-- One iteration of the loop body of `updateIndexMap`: assign the bit an
identifier if needed and push `idx` onto the source (resp. target) list of
that identifier. -/
def stepIndex (idx : Nat) (updateSource : Bool) (st : MState) (b : SigBit) : MState :=
  let r := assignBit b st.sigids st.sigidcounter
  if updateSource then
    { st with sigids := r.2.1, sigidcounter := r.2.2, srcMap := mapPush st.srcMap r.1 idx }
  else
    { st with sigids := r.2.1, sigidcounter := r.2.2, tgtMap := mapPush st.tgtMap r.1 idx }

/-- `GmlWriter::updateIndexMap` on an already canonicalised bit list:
returns the number of bits walked (`iter`) and the updated state. -/
def updateIndexMap (bits : List SigBit) (idx : Nat) (updateSource : Bool)
    (st : MState) : Nat × MState :=
  (bits.length, bits.foldl (stepIndex idx updateSource) st)

/-- The connection loop body inside the cell loop of `write_module`: an
input pin records the cell as target of each connected bit, an output pin
records it as source (an inout pin does both, in that order). -/
def processConn (m : Module) (idx : Nat) (st : MState) (c : Conn) : MState :=
  let st1 := if c.isInput then (updateIndexMap (c.sig.map m.sigmapF) idx false st).2 else st
  if c.isOutput then (updateIndexMap (c.sig.map m.sigmapF) idx true st1).2 else st1

/-- One emitted line of output. -/
inductive Line where
  | text : String → Line
  | node : Nat → String → String → Line
  | edge : Nat → Nat → Line
deriving DecidableEq, Repr

/-- The quoted type token of a port node:
`w->port_input ? w->port_output ? "inout" : "input" : "output"`. -/
def portTypeTok (w : Wire) : String :=
  if w.port_input then (if w.port_output then "\"inout\"" else "\"input\"") else "\"output\""

/-- The port loop of `write_module` (lines 157-168): one node per selected
port, advancing `idCounter` by the value `updateIndexMap` returns (the bit
count of the port wire). -/
def writePorts (useSel : Bool) (m : Module) :
    List String → Nat → MState → List Line × Nat × MState
  | [], idC, st => ([], idC, st)
  | n :: ns, idC, st =>
    match wireOf m n with
    | none => writePorts useSel m ns idC st
    | some w =>
      if useSel && !w.selected then writePorts useSel m ns idC st
      else
        let r := updateIndexMap (sigBitsOfWire m w) idC w.port_input st
        let rest := writePorts useSel m ns (idC + r.1) r.2
        (Line.node idC (get_name n) (portTypeTok w) :: rest.1, rest.2)

/-- The cell loop of `write_module` (lines 172-190): one node per selected
cell, then its connections update the maps, then `idCounter += 1`. -/
def writeCells (useSel : Bool) (m : Module) :
    List Cell → Nat → MState → List Line × Nat × MState
  | [], idC, st => ([], idC, st)
  | c :: cs, idC, st =>
    if useSel && !c.selected then writeCells useSel m cs idC st
    else
      let st' := c.connections.foldl (processConn m idC) st
      let rest := writeCells useSel m cs (idC + 1) st'
      (Line.node idC (get_name c.name) (get_name c.ctype) :: rest.1, rest.2)

/-- One step of the duplicate-suppressed emission: skip the candidate if it
equals the pair held in the single `prev` slot, else emit it and load the
slot. -/
def emitStep (acc : List (Nat × Nat) × Nat × Nat) (c : Nat × Nat) :
    List (Nat × Nat) × Nat × Nat :=
  if c = acc.2 then acc else (acc.1 ++ [c], c)

/-- The candidate pairs of one wire, in loop order: bits in vector order,
and per bit the recorded sources crossed with the recorded targets. -/
def wireCands (srcMap tgtMap : IdxMap) (ids : List Ident) : List (Nat × Nat) :=
  ids.flatMap (fun bid =>
    (mapGet srcMap bid).flatMap (fun s => (mapGet tgtMap bid).map (fun t => (s, t))))

/-- The emitted pairs of a candidate list, from slot `(0,0)`. -/
def emitList (cands : List (Nat × Nat)) : List (Nat × Nat) :=
  (cands.foldl emitStep ([], 0, 0)).1

/-- The slot contents after a candidate list, from slot `(0,0)`. -/
def emitPrev (cands : List (Nat × Nat)) : Nat × Nat :=
  (cands.foldl emitStep ([], 0, 0)).2

/-- The edges emitted for one wire (lines 219-234): `prevSource` /
`prevTarget` start at 0 for each wire. -/
def wireEdges (srcMap tgtMap : IdxMap) (ids : List Ident) : List (Nat × Nat) :=
  emitList (wireCands srcMap tgtMap ids)

/-- The wire loop of `write_module` (lines 214-236): `get_bits_vector`
assigns identifiers to any not-yet-seen bits of the wire, then the edges of
the wire are emitted. -/
def writeWires (useSel : Bool) (m : Module) :
    List Wire → MState → List Line × MState
  | [], st => ([], st)
  | w :: ws, st =>
    if useSel && !w.selected then writeWires useSel m ws st
    else
      let r := assignBits (sigBitsOfWire m w) st.sigids st.sigidcounter
      let st' : MState := { st with sigids := r.2.1, sigidcounter := r.2.2 }
      let edges := wireEdges st'.srcMap st'.tgtMap r.1
      let rest := writeWires useSel m ws st'
      (edges.map (fun p => Line.edge p.1 p.2) ++ rest.1, rest.2)

/-- The message of the `log_error` call in `write_module`. -/
def processErrMsg (m : Module) : String :=
  "Module " ++ unescape_id m.name ++
    " contains processes, which are not supported by GML backend (run `proc` first).\n"

/-- `GmlWriter::write_module`: resets `sigids` and `sigidcounter` (to 2)
but keeps the two connectivity maps it is handed; fails fatally on a module
with processes, before emitting anything for it; otherwise emits port
nodes, cell nodes, then edges, and returns the (updated, never cleared)
connectivity maps. -/
def write_module (useSel : Bool) (srcMap tgtMap : IdxMap) (m : Module) :
    Except String (List Line × IdxMap × IdxMap) :=
  if m.has_processes then .error (processErrMsg m)
  else
    let r1 := writePorts useSel m m.ports 2 ⟨[], 2, srcMap, tgtMap⟩
    let r2 := writeCells useSel m m.cells r1.2.1 r1.2.2
    let r3 := writeWires useSel m m.wires r2.2.2
    .ok (r1.1 ++ r2.1 ++ r3.1, r3.2.srcMap, r3.2.tgtMap)

/-- The writer configuration (`GmlWriter` constructor arguments other than
the stream). -/
structure GmlWriter where
  use_selection : Bool
  aig_mode : Bool
  compat_int_mode : Bool

/-- The module loop of `write_design`, threading the connectivity maps
from module to module; a fatal error stops the loop, keeping the lines of
the modules already written. -/
def writeModules (useSel : Bool) :
    List Module → IdxMap → IdxMap → List Line × IdxMap × IdxMap × Option String
  | [], s, t => ([], s, t, none)
  | m :: ms, s, t =>
    match write_module useSel s t m with
    | .error e => ([], s, t, some e)
    | .ok r =>
      let rest := writeModules useSel ms r.2.1 r.2.2
      (r.1 ++ rest.1, rest.2)

/-- `GmlWriter::write_design`: header, the selected modules in order, and
the closing bracket (only reached when no module failed; a fatal error
leaves the stream with the lines written so far). -/
def write_design (g : GmlWriter) (d : Design) : List Line × Option String :=
  let mods := if g.use_selection then d.modules.filter (fun m => m.selected) else d.modules
  let r := writeModules g.use_selection mods [] []
  match r.2.2.2 with
  | some e => (Line.text "graph [\n" :: Line.text "    multigraph 1\n" :: r.1, some e)
  | none =>
      (Line.text "graph [\n" :: Line.text "    multigraph 1\n" :: (r.1 ++ [Line.text "]"]), none)

/-- Rendering of one line with the exact `stringf` format strings of the
source (the node type token already carries its quotes). -/
def renderLine : Line → String
  | .text s => s
  | .node i lab tok =>
      "          node [  id  " ++ toString i ++ "    label  " ++ lab ++ " \n" ++
      "              type\t" ++ tok ++ "\n" ++
      "          ]\n"
  | .edge s t =>
      "          edge [    source  " ++ toString s ++ "    target  " ++ toString t ++ "    ] \n"

/-- The full output text. -/
def renderOut (ls : List Line) : String :=
  String.join (ls.map renderLine)

/-- The lines of a `write_module` result (none on a fatal error). -/
def linesOf : Except String (List Line × IdxMap × IdxMap) → List Line
  | .ok r => r.1
  | .error _ => []

/-- The connectivity maps of a `write_module` result. -/
def mapsOf : Except String (List Line × IdxMap × IdxMap) → IdxMap × IdxMap
  | .ok r => r.2
  | .error _ => ([], [])

/-- The ids of the node records of an output fragment, in order. -/
def nodeIds (ls : List Line) : List Nat :=
  ls.filterMap (fun l => match l with | .node i _ _ => some i | _ => none)

/-- The node records of an output fragment, in order. -/
def nodeLines (ls : List Line) : List Line :=
  ls.filter (fun l => match l with | .node _ _ _ => true | _ => false)

/-- The edge records of an output fragment, as pairs, in order. -/
def edgePairs (ls : List Line) : List (Nat × Nat) :=
  ls.filterMap (fun l => match l with | .edge s t => some (s, t) | _ => none)

/-- The node records the port loop produces, starting the node-id counter
at `idC`: one node per selected resolvable port, the counter advancing by
the port wire's bit width after each. -/
def portNodesFrom (useSel : Bool) (m : Module) : Nat → List String → List Line
  | _, [] => []
  | idC, n :: ns =>
    match wireOf m n with
    | none => portNodesFrom useSel m idC ns
    | some w =>
      if useSel && !w.selected then portNodesFrom useSel m idC ns
      else Line.node idC (get_name n) (portTypeTok w) ::
        portNodesFrom useSel m (idC + w.width) ns

/-- The value of the node-id counter after the port loop. -/
def portsEnd (useSel : Bool) (m : Module) : Nat → List String → Nat
  | idC, [] => idC
  | idC, n :: ns =>
    match wireOf m n with
    | none => portsEnd useSel m idC ns
    | some w =>
      if useSel && !w.selected then portsEnd useSel m idC ns
      else portsEnd useSel m (idC + w.width) ns

/-- The node records the cell loop produces from counter value `idC`: one
node per selected cell, the counter advancing by 1 after each. -/
def cellNodesFrom (useSel : Bool) : Nat → List Cell → List Line
  | _, [] => []
  | idC, c :: cs =>
    if useSel && !c.selected then cellNodesFrom useSel idC cs
    else Line.node idC (get_name c.name) (get_name c.ctype) :: cellNodesFrom useSel (idC + 1) cs

/-- Sequential id assignment as claimed: each id is the successor of the
previous one. -/
def idsConsecutive (l : List Nat) : Prop :=
  List.Chain' (fun a b => b = a + 1) l

instance : DecidablePred idsConsecutive := fun l =>
  inferInstanceAs (Decidable (List.Chain' _ l))

/-! ### Concrete fixtures -/

/-- A 1-bit output port wire `b`. -/
def wireB : Wire := { name := "b", width := 1, port_input := false, port_output := true, selected := true }

/-- Module `A`: a single 1-bit output port `b`, nothing else. -/
def modA : Module := { name := "A", ports := ["b"], wires := [wireB], cells := [],
                       has_processes := false, selected := true, sigmapF := id }

/-- A 1-bit input port wire `p`. -/
def wireP : Wire := { name := "p", width := 1, port_input := true, port_output := false, selected := true }

/-- Module `B`: a single 1-bit input port `p`, nothing else. -/
def modB : Module := { name := "B", ports := ["p"], wires := [wireP], cells := [],
                       has_processes := false, selected := true, sigmapF := id }

/-- A design holding `A` then `B`. -/
def designAB : Design := ⟨[modA, modB]⟩

/-- A design holding `B` alone. -/
def designB : Design := ⟨[modB]⟩

/-- A 2-bit input port wire `a`. -/
def wireA2 : Wire := { name := "a", width := 2, port_input := true, port_output := false, selected := true }

/-- A cell with no connections. -/
def cellC : Cell := { name := "c", ctype := "AND", selected := true, connections := [] }

/-- A module with one 2-bit input port and one cell. -/
def mod2bit : Module := { name := "M", ports := ["a"], wires := [wireA2], cells := [cellC],
                          has_processes := false, selected := true, sigmapF := id }

/-- A canonicalisation function aliasing bit `b[0]` to `a[0]`. -/
def aliasF : SigBit → SigBit
  | .bitOf "b" 0 => .bitOf "a" 0
  | b => b

/-- A 1-bit input port wire `a`. -/
def wireAl1 : Wire := { name := "a", width := 1, port_input := true, port_output := false, selected := true }

/-- A 1-bit output port wire `b`. -/
def wireAl2 : Wire := { name := "b", width := 1, port_input := false, port_output := true, selected := true }

/-- A module whose output port `b` is an alias of its input port `a`: both
wires canonicalise to the same bit, so the same edge candidate appears for
both wires in the wire loop. -/
def modAlias : Module := { name := "AL", ports := ["a", "b"], wires := [wireAl1, wireAl2], cells := [],
                           has_processes := false, selected := true, sigmapF := aliasF }

/-- A module that contains processes. -/
def modProc : Module := { name := "P", ports := [], wires := [], cells := [],
                          has_processes := true, selected := true, sigmapF := id }

/-- Source map of the non-consecutive-recurrence demonstration: two bit
identifiers, both driven by node 2. -/
def demoSrc : IdxMap := [(.intId 7, [2]), (.intId 8, [2])]

/-- Target map of the non-consecutive-recurrence demonstration: the first
bit feeds nodes 4 and 5, the second (a later bit of the same wire) feeds
node 4 again. -/
def demoTgt : IdxMap := [(.intId 7, [4, 5]), (.intId 8, [4])]

/-- Maps with one bit whose sources are `[5, 6]` and targets `[9, 9]`. -/
def c4Src : IdxMap := [(.intId 3, [5, 6])]

/-- See `c4Src`. -/
def c4Tgt : IdxMap := [(.intId 3, [9, 9])]

/-- Maps recording node 2 as the only source and node 3 as the only
target of bit identifier 5. -/
def c10Src : IdxMap := [(.intId 5, [2])]

/-- See `c10Src`. -/
def c10Tgt : IdxMap := [(.intId 5, [3])]

/-- Processing a list of (already canonicalised) bits through the lazy
identifier assignment, from the per-module initial state (empty table,
counter 2).  Every mutation of `sigids` in the writer goes through
`assignBit` on the canonicalised bits in traversal order, so the reachable
table states are exactly the `assignAll l`. -/
def assignAll (l : List SigBit) : SigIds × Nat :=
  l.foldl (fun st b => (assignBit b st.1 st.2).2) ([], 2)

/-- The invariant the identifier table and counter maintain throughout one
module: counter at least 2, constants mapped (if at all) to their fixed
tokens, integer identifiers in `[2, counter)`, and injectivity of the
integer identifiers. -/
def SigInv (s : SigIds) (ctr : Nat) : Prop :=
  2 ≤ ctr ∧
  (∀ c, lookupId s (.const c) = none ∨ lookupId s (.const c) = some (tokenOfState c)) ∧
  (∀ b n, lookupId s b = some (.intId n) → 2 ≤ n ∧ n < ctr) ∧
  (∀ b1 b2 n, lookupId s b1 = some (.intId n) → lookupId s b2 = some (.intId n) → b1 = b2)

/-- All values recorded in a connectivity map are at least `k`. -/
def mapValsGE (k : Nat) (mp : IdxMap) : Prop :=
  ∀ bid x, x ∈ mapGet mp bid → k ≤ x

/-! ### Lemmas on the duplicate-suppressed emission fold -/

theorem emitStep_fst (acc : List (Nat × Nat) × Nat × Nat) (c : Nat × Nat) :
    (emitStep acc c).1 = if c = acc.2 then acc.1 else acc.1 ++ [c] := by
  by_cases h : c = acc.2 <;> simp [emitStep, h]

theorem foldl_emitStep_cons (out : List (Nat × Nat)) (prev c : Nat × Nat)
    (l : List (Nat × Nat)) :
    List.foldl emitStep (out, prev) (c :: l) =
      if c = prev then List.foldl emitStep (out, prev) l
      else List.foldl emitStep (out ++ [c], c) l := by
  by_cases h : c = prev <;> simp [emitStep, h]

theorem emitStep_out_extends :
    ∀ (l : List (Nat × Nat)) (out : List (Nat × Nat)) (prev : Nat × Nat),
      ∃ tl, (List.foldl emitStep (out, prev) l).1 = out ++ tl
  | [], out, prev => ⟨[], by simp⟩
  | c :: l, out, prev => by
    rw [foldl_emitStep_cons]
    by_cases h : c = prev
    · simpa [h] using emitStep_out_extends l out prev
    · obtain ⟨tl, htl⟩ := emitStep_out_extends l (out ++ [c]) c
      exact ⟨c :: tl, by simp [h, htl]⟩

theorem emitStep_mem :
    ∀ (l : List (Nat × Nat)) (out : List (Nat × Nat)) (prev x : Nat × Nat),
      x ∈ (List.foldl emitStep (out, prev) l).1 → x ∈ out ∨ x ∈ l
  | [], out, prev, x => by simp
  | c :: l, out, prev, x => by
    rw [foldl_emitStep_cons]
    by_cases h : c = prev
    · simp only [h, if_pos rfl]
      intro hx
      rcases emitStep_mem l out prev x hx with h1 | h1
      · exact Or.inl h1
      · exact Or.inr (List.mem_cons_of_mem _ h1)
    · simp only [if_neg h]
      intro hx
      rcases emitStep_mem l (out ++ [c]) c x hx with h1 | h1
      · rcases List.mem_append.mp h1 with h2 | h2
        · exact Or.inl h2
        · have h3 : x = c := List.mem_singleton.mp h2
          exact Or.inr (by simp [h3])
      · exact Or.inr (List.mem_cons_of_mem _ h1)

theorem emit_prev_lastEmitted :
    ∀ (l : List (Nat × Nat)) (out : List (Nat × Nat)) (prev d : Nat × Nat),
      prev = out.getLast?.getD d →
      (List.foldl emitStep (out, prev) l).2 =
        ((List.foldl emitStep (out, prev) l).1).getLast?.getD d
  | [], out, prev, d, h => by simpa using h
  | c :: l, out, prev, d, h => by
    rw [foldl_emitStep_cons]
    by_cases hc : c = prev
    · simp only [hc, if_pos rfl]
      exact emit_prev_lastEmitted l out prev d h
    · simp only [if_neg hc]
      exact emit_prev_lastEmitted l (out ++ [c]) c d (by simp [List.getLast?_concat])

/-- The suppression slot always holds the last emitted pair (or the
initial `(0,0)` when nothing has been emitted yet). -/
theorem emitPrev_eq_getLast (l : List (Nat × Nat)) :
    emitPrev l = (emitList l).getLast?.getD (0, 0) :=
  emit_prev_lastEmitted l [] (0, 0) (0, 0) rfl

theorem emitList_concat (l : List (Nat × Nat)) (c : Nat × Nat) :
    emitList (l ++ [c]) =
      if c = emitPrev l then emitList l else emitList l ++ [c] := by
  unfold emitList emitPrev
  rw [List.foldl_append]
  show (emitStep (List.foldl emitStep ([], 0, 0) l) c).1 = _
  rw [emitStep_fst]

theorem emitList_mem (l : List (Nat × Nat)) (x : Nat × Nat) :
    x ∈ emitList l → x ∈ l := by
  intro hx
  rcases emitStep_mem l [] (0, 0) x hx with h | h
  · simp at h
  · exact h

theorem emitList_cons_head (c : Nat × Nat) (cs : List (Nat × Nat)) (h : c ≠ (0, 0)) :
    (emitList (c :: cs)).head? = some c := by
  unfold emitList
  rw [foldl_emitStep_cons]
  simp only [if_neg h, List.nil_append]
  obtain ⟨tl, htl⟩ := emitStep_out_extends cs [c] c
  simp [htl]

/-- A candidate is dropped (the emitted list does not grow) exactly when it
equals the pair currently in the suppression slot, i.e. the immediately
previously emitted pair. -/
theorem emit_skip_iff (cands : List (Nat × Nat)) (i : Nat) (h : i < cands.length) :
    (emitList (cands.take (i + 1)) = emitList (cands.take i)) ↔
      cands[i] = emitPrev (cands.take i) := by
  have ht : cands.take (i + 1) = cands.take i ++ [cands[i]] := by
    rw [List.take_succ]
    simp [List.getElem?_eq_getElem h]
  rw [ht, emitList_concat]
  by_cases hc : cands[i] = emitPrev (cands.take i)
  · simp [hc]
  · simp only [if_neg hc]
    constructor
    · intro he
      exfalso
      have hlen := congrArg List.length he
      simp at hlen
    · intro he
      exact absurd he hc

/-! ### Lemmas on the connectivity maps -/

theorem mapGet_push_self : ∀ (mp : IdxMap) (k : Ident) (v : Nat),
    mapGet (mapPush mp k v) k = mapGet mp k ++ [v]
  | [], k, v => by simp [mapGet, mapPush]
  | (k', l) :: rest, k, v => by
    by_cases h : k' = k
    · simp [mapGet, mapPush, h]
    · simp [mapGet, mapPush, h, mapGet_push_self rest k v]

theorem mapGet_push_ne : ∀ (mp : IdxMap) (k kq : Ident) (v : Nat), kq ≠ k →
    mapGet (mapPush mp k v) kq = mapGet mp kq
  | [], k, kq, v, h => by
    have h' : ¬(k = kq) := fun he => h he.symm
    simp [mapGet, mapPush, h']
  | (k', l) :: rest, k, kq, v, h => by
    by_cases h2 : k' = k
    · subst h2
      have h' : ¬(k' = kq) := fun he => h he.symm
      simp [mapGet, mapPush, h']
    · simp only [mapPush, if_neg h2]
      by_cases h3 : k' = kq
      · simp [mapGet, h3]
      · simp [mapGet, h3, mapGet_push_ne rest k kq v h]

theorem mapGet_push_mem (mp : IdxMap) (k : Ident) (v : Nat) (kq : Ident) (x : Nat) :
    x ∈ mapGet (mapPush mp k v) kq → x ∈ mapGet mp kq ∨ x = v := by
  by_cases h : kq = k
  · subst h
    rw [mapGet_push_self]
    intro hx
    rcases List.mem_append.mp hx with h1 | h1
    · exact Or.inl h1
    · exact Or.inr (List.mem_singleton.mp h1)
  · rw [mapGet_push_ne mp k kq v h]
    exact Or.inl

/-- Every candidate pair of a wire joins a recorded source with a recorded
target of one of the wire's bit identifiers. -/
theorem wireCands_mem (src tgt : IdxMap) (ids : List Ident) (p : Nat × Nat) :
    p ∈ wireCands src tgt ids →
      ∃ bid ∈ ids, p.1 ∈ mapGet src bid ∧ p.2 ∈ mapGet tgt bid := by
  intro hp
  simp only [wireCands, List.mem_flatMap, List.mem_map] at hp
  obtain ⟨bid, hbid, s, hs, t, ht, heq⟩ := hp
  refine ⟨bid, hbid, ?_, ?_⟩
  · rw [← heq]; exact hs
  · rw [← heq]; exact ht

/-- Every emitted pair of a wire is one of its candidates. -/
theorem wireEdges_mem (src tgt : IdxMap) (ids : List Ident) (p : Nat × Nat) :
    p ∈ wireEdges src tgt ids →
      ∃ bid ∈ ids, p.1 ∈ mapGet src bid ∧ p.2 ∈ mapGet tgt bid := by
  intro hp
  exact wireCands_mem src tgt ids p (emitList_mem _ _ hp)

/-! ### Lemmas on the writer loops -/

/-- The wire loop never changes the connectivity maps. -/
theorem writeWires_maps (useSel : Bool) (m : Module) :
    ∀ (ws : List Wire) (st : MState),
      (writeWires useSel m ws st).2.srcMap = st.srcMap ∧
      (writeWires useSel m ws st).2.tgtMap = st.tgtMap
  | [], st => ⟨rfl, rfl⟩
  | w :: ws, st => by
    simp only [writeWires]
    by_cases h : useSel && !w.selected
    · simp only [if_pos h]
      exact writeWires_maps useSel m ws st
    · simp only [if_neg h]
      exact writeWires_maps useSel m ws _

/-- Every line the wire loop emits is an edge record whose source and
target are recorded in the connectivity maps under some bit identifier. -/
theorem writeWires_lines (useSel : Bool) (m : Module) :
    ∀ (ws : List Wire) (st : MState) (l : Line),
      l ∈ (writeWires useSel m ws st).1 →
      ∃ a b bid, l = .edge a b ∧ a ∈ mapGet st.srcMap bid ∧ b ∈ mapGet st.tgtMap bid
  | [], st, l => by simp [writeWires]
  | w :: ws, st, l => by
    simp only [writeWires]
    by_cases h : useSel && !w.selected
    · simp only [if_pos h]
      exact writeWires_lines useSel m ws st l
    · simp only [if_neg h]
      intro hl
      rcases List.mem_append.mp hl with h1 | h1
      · obtain ⟨p, hp, hpe⟩ := List.mem_map.mp h1
        obtain ⟨bid, hbid, h3, h4⟩ := wireEdges_mem _ _ _ p hp
        exact ⟨p.1, p.2, bid, hpe.symm, h3, h4⟩
      · exact writeWires_lines useSel m ws
          { st with
            sigids := (assignBits (sigBitsOfWire m w) st.sigids st.sigidcounter).2.1,
            sigidcounter := (assignBits (sigBitsOfWire m w) st.sigids st.sigidcounter).2.2 }
          l h1

/-- The node records and the final counter value of the port loop do not
depend on the threaded writer state. -/
theorem writePorts_proj (useSel : Bool) (m : Module) :
    ∀ (ns : List String) (idC : Nat) (st : MState),
      (writePorts useSel m ns idC st).1 = portNodesFrom useSel m idC ns ∧
      (writePorts useSel m ns idC st).2.1 = portsEnd useSel m idC ns
  | [], idC, st => ⟨rfl, rfl⟩
  | n :: ns, idC, st => by
    simp only [writePorts, portNodesFrom, portsEnd]
    cases he : wireOf m n with
    | none => exact writePorts_proj useSel m ns idC st
    | some w =>
      by_cases h : useSel && !w.selected
      · simp only [if_pos h]
        exact writePorts_proj useSel m ns idC st
      · simp only [if_neg h]
        have hlen : (updateIndexMap (sigBitsOfWire m w) idC w.port_input st).1 = w.width := by
          simp [updateIndexMap, sigBitsOfWire]
        constructor
        · simp only [hlen]
          rw [(writePorts_proj useSel m ns (idC + w.width) _).1]
        · simp only [hlen]
          rw [(writePorts_proj useSel m ns (idC + w.width) _).2]

/-- The node records of the cell loop do not depend on the threaded writer
state. -/
theorem writeCells_proj (useSel : Bool) (m : Module) :
    ∀ (cs : List Cell) (idC : Nat) (st : MState),
      (writeCells useSel m cs idC st).1 = cellNodesFrom useSel idC cs
  | [], idC, st => rfl
  | c :: cs, idC, st => by
    simp only [writeCells, cellNodesFrom]
    by_cases h : useSel && !c.selected
    · simp only [if_pos h]
      exact writeCells_proj useSel m cs idC st
    · simp only [if_neg h]
      rw [writeCells_proj useSel m cs (idC + 1) _]

theorem portsEnd_ge (useSel : Bool) (m : Module) :
    ∀ (ns : List String) (idC : Nat), idC ≤ portsEnd useSel m idC ns
  | [], idC => le_refl idC
  | n :: ns, idC => by
    simp only [portsEnd]
    cases he : wireOf m n with
    | none => exact portsEnd_ge useSel m ns idC
    | some w =>
      by_cases h : useSel && !w.selected
      · simp only [if_pos h]
        exact portsEnd_ge useSel m ns idC
      · simp only [if_neg h]
        exact le_trans (Nat.le_add_right idC w.width) (portsEnd_ge useSel m ns (idC + w.width))

theorem portNodes_shape (useSel : Bool) (m : Module) :
    ∀ (ns : List String) (idC : Nat) (l : Line), l ∈ portNodesFrom useSel m idC ns →
      ∃ i lab tok, l = .node i lab tok
  | [], idC, l => by simp [portNodesFrom]
  | n :: ns, idC, l => by
    simp only [portNodesFrom]
    cases he : wireOf m n with
    | none => exact portNodes_shape useSel m ns idC l
    | some w =>
      by_cases h : useSel && !w.selected
      · simp only [if_pos h]
        exact portNodes_shape useSel m ns idC l
      · simp only [if_neg h]
        intro hl
        rcases List.mem_cons.mp hl with h1 | h1
        · exact ⟨idC, get_name n, portTypeTok w, h1⟩
        · exact portNodes_shape useSel m ns (idC + w.width) l h1

theorem cellNodes_shape (useSel : Bool) :
    ∀ (cs : List Cell) (idC : Nat) (l : Line), l ∈ cellNodesFrom useSel idC cs →
      ∃ i lab tok, l = .node i lab tok
  | [], idC, l => by simp [cellNodesFrom]
  | c :: cs, idC, l => by
    simp only [cellNodesFrom]
    by_cases h : useSel && !c.selected
    · simp only [if_pos h]
      exact cellNodes_shape useSel cs idC l
    · simp only [if_neg h]
      intro hl
      rcases List.mem_cons.mp hl with h1 | h1
      · exact ⟨idC, get_name c.name, get_name c.ctype, h1⟩
      · exact cellNodes_shape useSel cs (idC + 1) l h1

theorem portNodes_ids_bounds (useSel : Bool) (m : Module)
    (hw : ∀ w ∈ m.wires, 1 ≤ w.width) :
    ∀ (ns : List String) (idC : Nat),
      List.Pairwise (· < ·) (nodeIds (portNodesFrom useSel m idC ns)) ∧
      ∀ i ∈ nodeIds (portNodesFrom useSel m idC ns), idC ≤ i ∧ i < portsEnd useSel m idC ns
  | [], idC => by simp [portNodesFrom, portsEnd, nodeIds]
  | n :: ns, idC => by
    simp only [portNodesFrom, portsEnd]
    cases he : wireOf m n with
    | none => exact portNodes_ids_bounds useSel m hw ns idC
    | some w =>
      by_cases h : useSel && !w.selected
      · simp only [if_pos h]
        exact portNodes_ids_bounds useSel m hw ns idC
      · simp only [if_neg h]
        have hwm : w ∈ m.wires := List.mem_of_find?_eq_some he
        have hw1 : 1 ≤ w.width := hw w hwm
        obtain ⟨ih1, ih2⟩ := portNodes_ids_bounds useSel m hw ns (idC + w.width)
        have hids : nodeIds (Line.node idC (get_name n) (portTypeTok w) ::
            portNodesFrom useSel m (idC + w.width) ns) =
            idC :: nodeIds (portNodesFrom useSel m (idC + w.width) ns) := by
          simp [nodeIds]
        rw [hids]
        constructor
        · refine List.pairwise_cons.mpr ⟨fun j hj => ?_, ih1⟩
          exact lt_of_lt_of_le (Nat.lt_add_of_pos_right hw1) (ih2 j hj).1
        · intro i hi
          rcases List.mem_cons.mp hi with h1 | h1
          · subst h1
            exact ⟨le_refl _, lt_of_lt_of_le (Nat.lt_add_of_pos_right hw1)
              (portsEnd_ge useSel m ns _)⟩
          · obtain ⟨ha, hb⟩ := ih2 i h1
            exact ⟨le_trans (Nat.le_add_right _ _) ha, hb⟩

theorem cellNodes_ids_bounds (useSel : Bool) :
    ∀ (cs : List Cell) (idC : Nat),
      List.Pairwise (· < ·) (nodeIds (cellNodesFrom useSel idC cs)) ∧
      ∀ i ∈ nodeIds (cellNodesFrom useSel idC cs), idC ≤ i
  | [], idC => by simp [cellNodesFrom, nodeIds]
  | c :: cs, idC => by
    simp only [cellNodesFrom]
    by_cases h : useSel && !c.selected
    · simp only [if_pos h]
      exact cellNodes_ids_bounds useSel cs idC
    · simp only [if_neg h]
      obtain ⟨ih1, ih2⟩ := cellNodes_ids_bounds useSel cs (idC + 1)
      have hids : nodeIds (Line.node idC (get_name c.name) (get_name c.ctype) ::
          cellNodesFrom useSel (idC + 1) cs) =
          idC :: nodeIds (cellNodesFrom useSel (idC + 1) cs) := by
        simp [nodeIds]
      rw [hids]
      constructor
      · refine List.pairwise_cons.mpr ⟨fun j hj => ?_, ih1⟩
        exact lt_of_lt_of_le (Nat.lt_succ_self idC) (ih2 j hj)
      · intro i hi
        rcases List.mem_cons.mp hi with h1 | h1
        · subst h1; exact le_refl _
        · exact le_trans (Nat.le_succ idC) (ih2 i h1)

/-- The output of `write_module` on a process-free module, assembled from
the three loops. -/
theorem write_module_ok (useSel : Bool) (srcMap tgtMap : IdxMap) (m : Module)
    (h : m.has_processes = false) :
    write_module useSel srcMap tgtMap m = .ok
      ((writePorts useSel m m.ports 2 ⟨[], 2, srcMap, tgtMap⟩).1 ++
        (writeCells useSel m m.cells (writePorts useSel m m.ports 2 ⟨[], 2, srcMap, tgtMap⟩).2.1
          (writePorts useSel m m.ports 2 ⟨[], 2, srcMap, tgtMap⟩).2.2).1 ++
        (writeWires useSel m m.wires
          (writeCells useSel m m.cells (writePorts useSel m m.ports 2 ⟨[], 2, srcMap, tgtMap⟩).2.1
            (writePorts useSel m m.ports 2 ⟨[], 2, srcMap, tgtMap⟩).2.2).2.2).1,
       (writeWires useSel m m.wires
          (writeCells useSel m m.cells (writePorts useSel m m.ports 2 ⟨[], 2, srcMap, tgtMap⟩).2.1
            (writePorts useSel m m.ports 2 ⟨[], 2, srcMap, tgtMap⟩).2.2).2.2).2.srcMap,
       (writeWires useSel m m.wires
          (writeCells useSel m m.cells (writePorts useSel m m.ports 2 ⟨[], 2, srcMap, tgtMap⟩).2.1
            (writePorts useSel m m.ports 2 ⟨[], 2, srcMap, tgtMap⟩).2.2).2.2).2.tgtMap) := by
  simp [write_module, h]

theorem nodeLines_append (a b : List Line) :
    nodeLines (a ++ b) = nodeLines a ++ nodeLines b := by
  simp [nodeLines]

theorem nodeIds_append (a b : List Line) :
    nodeIds (a ++ b) = nodeIds a ++ nodeIds b := by
  simp [nodeIds]

/-- The wire loop contributes no node records. -/
theorem writeWires_nodeLines (useSel : Bool) (m : Module) (ws : List Wire) (st : MState) :
    nodeLines (writeWires useSel m ws st).1 = [] := by
  unfold nodeLines
  refine List.filter_eq_nil_iff.mpr (fun l hl => ?_)
  obtain ⟨a, b, bid, rfl, _, _⟩ := writeWires_lines useSel m ws st l hl
  simp

theorem nodeLines_portNodes (useSel : Bool) (m : Module) (ns : List String) (idC : Nat) :
    nodeLines (portNodesFrom useSel m idC ns) = portNodesFrom useSel m idC ns := by
  unfold nodeLines
  refine List.filter_eq_self.mpr (fun l hl => ?_)
  obtain ⟨i, lab, tok, rfl⟩ := portNodes_shape useSel m ns idC l hl
  rfl

theorem nodeLines_cellNodes (useSel : Bool) (cs : List Cell) (idC : Nat) :
    nodeLines (cellNodesFrom useSel idC cs) = cellNodesFrom useSel idC cs := by
  unfold nodeLines
  refine List.filter_eq_self.mpr (fun l hl => ?_)
  obtain ⟨i, lab, tok, rfl⟩ := cellNodes_shape useSel cs idC l hl
  rfl

/-- The node records of a process-free module: the port nodes (counter
from 2, advanced by each port's width) followed by the cell nodes (counter
continuing from `portsEnd`, advanced by 1). -/
theorem write_module_nodes (useSel : Bool) (srcMap tgtMap : IdxMap) (m : Module)
    (h : m.has_processes = false) :
    nodeLines (linesOf (write_module useSel srcMap tgtMap m)) =
      portNodesFrom useSel m 2 m.ports ++
        cellNodesFrom useSel (portsEnd useSel m 2 m.ports) m.cells := by
  rw [write_module_ok useSel srcMap tgtMap m h]
  show nodeLines ((writePorts useSel m m.ports 2 ⟨[], 2, srcMap, tgtMap⟩).1 ++
    (writeCells useSel m m.cells _ _).1 ++ (writeWires useSel m m.wires _).1) = _
  rw [nodeLines_append, nodeLines_append, writeWires_nodeLines, List.append_nil,
    (writePorts_proj useSel m m.ports 2 _).1, writeCells_proj,
    (writePorts_proj useSel m m.ports 2 _).2,
    nodeLines_portNodes, nodeLines_cellNodes]

/-! ### Lemmas on the lazy identifier assignment -/

theorem tokenOfState_ne_intId (c : BState) (n : Nat) : tokenOfState c ≠ .intId n := by
  cases c <;> simp [tokenOfState]

theorem lookupId_append : ∀ (s : SigIds) (p : SigBit × Ident) (b : SigBit),
    lookupId (s ++ [p]) b =
      (match lookupId s b with
       | some i => some i
       | none => if p.1 = b then some p.2 else none)
  | [], p, b => by simp [lookupId]
  | (b', i') :: s, p, b => by
    by_cases h : b' = b
    · simp [lookupId, h]
    · simp only [List.cons_append, lookupId, if_neg h]
      exact lookupId_append s p b

theorem sigInv_init : SigInv [] 2 := by
  refine ⟨le_refl 2, fun c => Or.inl rfl, ?_, ?_⟩
  · intro b n h
    simp [lookupId] at h
  · intro b1 b2 n h1 h2
    simp [lookupId] at h1

theorem assignBit_persist (b : SigBit) (s : SigIds) (ctr : Nat) (bq : SigBit) (i : Ident)
    (h : lookupId s bq = some i) :
    lookupId (assignBit b s ctr).2.1 bq = some i := by
  unfold assignBit
  cases hl : lookupId s b with
  | some j => exact h
  | none =>
    cases b with
    | const st =>
      rw [lookupId_append, h]
    | bitOf w k =>
      rw [lookupId_append, h]

theorem assignBit_inv (b : SigBit) (s : SigIds) (ctr : Nat) (hinv : SigInv s ctr) :
    SigInv (assignBit b s ctr).2.1 (assignBit b s ctr).2.2 := by
  obtain ⟨hc2, hconst, hrange, hinj⟩ := hinv
  unfold assignBit
  cases hl : lookupId s b with
  | some j => exact ⟨hc2, hconst, hrange, hinj⟩
  | none =>
    cases b with
    | const st =>
      refine ⟨hc2, ?_, ?_, ?_⟩
      · intro c
        rw [lookupId_append]
        cases hq : lookupId s (.const c) with
        | some j =>
          rcases hconst c with h1 | h1
          · rw [hq] at h1; cases h1
          · rw [hq] at h1
            exact Or.inr h1
        | none =>
          by_cases he : SigBit.const st = SigBit.const c
          · have : st = c := by injection he
            subst this
            simp

          · simp [he]
      · intro bq n h
        rw [lookupId_append] at h
        cases hq : lookupId s bq with
        | some j =>
          rw [hq] at h
          exact hrange bq n (hq.trans h)
        | none =>
          rw [hq] at h
          by_cases he : SigBit.const st = bq
          · rw [if_pos he] at h
            exact absurd (Option.some.inj h) (tokenOfState_ne_intId st n)
          · rw [if_neg he] at h
            cases h
      · intro b1 b2 n h1 h2
        rw [lookupId_append] at h1 h2
        cases hq1 : lookupId s b1 with
        | some j1 =>
          rw [hq1] at h1
          cases hq2 : lookupId s b2 with
          | some j2 =>
            rw [hq2] at h2
            exact hinj b1 b2 n (hq1.trans h1) (hq2.trans h2)
          | none =>
            rw [hq2] at h2
            by_cases he : SigBit.const st = b2
            · rw [if_pos he] at h2
              exact absurd (Option.some.inj h2) (tokenOfState_ne_intId st n)
            · rw [if_neg he] at h2
              cases h2
        | none =>
          rw [hq1] at h1
          by_cases he : SigBit.const st = b1
          · rw [if_pos he] at h1
            exact absurd (Option.some.inj h1) (tokenOfState_ne_intId st n)
          · rw [if_neg he] at h1
            cases h1
    | bitOf w k =>
      refine ⟨le_trans hc2 (Nat.le_succ ctr), ?_, ?_, ?_⟩
      · intro c
        rw [lookupId_append]
        cases hq : lookupId s (.const c) with
        | some j =>
          rcases hconst c with h1 | h1
          · rw [hq] at h1; cases h1
          · rw [hq] at h1
            exact Or.inr h1
        | none =>
          simp
      · intro bq n h
        rw [lookupId_append] at h
        cases hq : lookupId s bq with
        | some j =>
          rw [hq] at h
          obtain ⟨ha, hb⟩ := hrange bq n (hq.trans h)
          exact ⟨ha, lt_trans hb (Nat.lt_succ_self ctr)⟩
        | none =>
          rw [hq] at h
          by_cases he : SigBit.bitOf w k = bq
          · rw [if_pos he] at h
            have : Ident.intId ctr = .intId n := Option.some.inj h
            have hn : ctr = n := by injection this
            subst hn
            exact ⟨hc2, Nat.lt_succ_self ctr⟩
          · rw [if_neg he] at h
            cases h
      · intro b1 b2 n h1 h2
        rw [lookupId_append] at h1 h2
        cases hq1 : lookupId s b1 with
        | some j1 =>
          rw [hq1] at h1
          cases hq2 : lookupId s b2 with
          | some j2 =>
            rw [hq2] at h2
            exact hinj b1 b2 n (hq1.trans h1) (hq2.trans h2)
          | none =>
            rw [hq2] at h2
            by_cases he : SigBit.bitOf w k = b2
            · rw [if_pos he] at h2
              have : Ident.intId ctr = .intId n := Option.some.inj h2
              have hn : ctr = n := by injection this
              subst hn
              obtain ⟨_, hb⟩ := hrange b1 ctr (hq1.trans h1)
              exact absurd hb (lt_irrefl ctr)
            · rw [if_neg he] at h2
              cases h2
        | none =>
          rw [hq1] at h1
          by_cases he1 : SigBit.bitOf w k = b1
          · rw [if_pos he1] at h1
            have : Ident.intId ctr = .intId n := Option.some.inj h1
            have hn : ctr = n := by injection this
            subst hn
            cases hq2 : lookupId s b2 with
            | some j2 =>
              rw [hq2] at h2
              obtain ⟨_, hb⟩ := hrange b2 ctr (hq2.trans h2)
              exact absurd hb (lt_irrefl ctr)
            | none =>
              rw [hq2] at h2
              by_cases he2 : SigBit.bitOf w k = b2
              · rw [← he1, ← he2]
              · rw [if_neg he2] at h2
                cases h2
          · rw [if_neg he1] at h1
            cases h1

theorem assignFold_inv :
    ∀ (l : List SigBit) (s : SigIds) (ctr : Nat), SigInv s ctr →
      SigInv (l.foldl (fun st b => (assignBit b st.1 st.2).2) (s, ctr)).1
        (l.foldl (fun st b => (assignBit b st.1 st.2).2) (s, ctr)).2
  | [], s, ctr, h => h
  | b :: l, s, ctr, h => by
    simp only [List.foldl_cons]
    exact assignFold_inv l _ _ (assignBit_inv b s ctr h)

theorem assignFold_persist :
    ∀ (l : List SigBit) (s : SigIds) (ctr : Nat) (bq : SigBit) (i : Ident),
      lookupId s bq = some i →
      lookupId (l.foldl (fun st b => (assignBit b st.1 st.2).2) (s, ctr)).1 bq = some i
  | [], s, ctr, bq, i, h => h
  | b :: l, s, ctr, bq, i, h => by
    simp only [List.foldl_cons]
    exact assignFold_persist l _ _ bq i (assignBit_persist b s ctr bq i h)

theorem assignAll_inv (l : List SigBit) : SigInv (assignAll l).1 (assignAll l).2 :=
  assignFold_inv l [] 2 sigInv_init

theorem assignAll_append (l1 l2 : List SigBit) :
    assignAll (l1 ++ l2) =
      l2.foldl (fun st b => (assignBit b st.1 st.2).2) (assignAll l1) := by
  unfold assignAll
  rw [List.foldl_append]

/-! ### Node ids recorded in the connectivity maps are at least 2 -/

theorem mapValsGE_push (k : Nat) (mp : IdxMap) (bid : Ident) (v : Nat)
    (h : mapValsGE k mp) (hv : k ≤ v) : mapValsGE k (mapPush mp bid v) := by
  intro b x hx
  rcases mapGet_push_mem mp bid v b x hx with h1 | h1
  · exact h b x h1
  · exact h1 ▸ hv

theorem stepIndex_maps_ge (k : Nat) (idx : Nat) (us : Bool) (st : MState) (b : SigBit)
    (hs : mapValsGE k st.srcMap) (ht : mapValsGE k st.tgtMap) (hidx : k ≤ idx) :
    mapValsGE k (stepIndex idx us st b).srcMap ∧ mapValsGE k (stepIndex idx us st b).tgtMap := by
  unfold stepIndex
  cases us with
  | true => exact ⟨mapValsGE_push k st.srcMap _ idx hs hidx, ht⟩
  | false => exact ⟨hs, mapValsGE_push k st.tgtMap _ idx ht hidx⟩

theorem foldl_stepIndex_maps_ge (k : Nat) (idx : Nat) (us : Bool) :
    ∀ (bits : List SigBit) (st : MState),
      mapValsGE k st.srcMap → mapValsGE k st.tgtMap → k ≤ idx →
      mapValsGE k (bits.foldl (stepIndex idx us) st).srcMap ∧
      mapValsGE k (bits.foldl (stepIndex idx us) st).tgtMap
  | [], st, hs, ht, hidx => ⟨hs, ht⟩
  | b :: bits, st, hs, ht, hidx => by
    simp only [List.foldl_cons]
    obtain ⟨h1, h2⟩ := stepIndex_maps_ge k idx us st b hs ht hidx
    exact foldl_stepIndex_maps_ge k idx us bits _ h1 h2 hidx

theorem updateIndexMap_maps_ge (k : Nat) (bits : List SigBit) (idx : Nat) (us : Bool)
    (st : MState) (hs : mapValsGE k st.srcMap) (ht : mapValsGE k st.tgtMap) (hidx : k ≤ idx) :
    mapValsGE k (updateIndexMap bits idx us st).2.srcMap ∧
    mapValsGE k (updateIndexMap bits idx us st).2.tgtMap :=
  foldl_stepIndex_maps_ge k idx us bits st hs ht hidx

theorem processConn_maps_ge (k : Nat) (m : Module) (idx : Nat) (st : MState) (c : Conn)
    (hs : mapValsGE k st.srcMap) (ht : mapValsGE k st.tgtMap) (hidx : k ≤ idx) :
    mapValsGE k (processConn m idx st c).srcMap ∧
    mapValsGE k (processConn m idx st c).tgtMap := by
  unfold processConn
  cases c.isInput with
  | false =>
    cases c.isOutput with
    | false => exact ⟨hs, ht⟩
    | true =>
      simp only [if_pos rfl, Bool.false_eq_true, if_neg (by simp : ¬(false = true))]
      exact updateIndexMap_maps_ge k _ idx true st hs ht hidx
  | true =>
    obtain ⟨h1, h2⟩ := updateIndexMap_maps_ge k (c.sig.map m.sigmapF) idx false st hs ht hidx
    cases c.isOutput with
    | false =>
      simp only [if_pos rfl, Bool.false_eq_true, if_neg (by simp : ¬(false = true))]
      exact ⟨h1, h2⟩
    | true =>
      simp only [if_pos rfl]
      exact updateIndexMap_maps_ge k _ idx true _ h1 h2 hidx

theorem foldl_processConn_maps_ge (k : Nat) (m : Module) (idx : Nat) :
    ∀ (cs : List Conn) (st : MState),
      mapValsGE k st.srcMap → mapValsGE k st.tgtMap → k ≤ idx →
      mapValsGE k (cs.foldl (processConn m idx) st).srcMap ∧
      mapValsGE k (cs.foldl (processConn m idx) st).tgtMap
  | [], st, hs, ht, hidx => ⟨hs, ht⟩
  | c :: cs, st, hs, ht, hidx => by
    simp only [List.foldl_cons]
    obtain ⟨h1, h2⟩ := processConn_maps_ge k m idx st c hs ht hidx
    exact foldl_processConn_maps_ge k m idx cs _ h1 h2 hidx

theorem writePorts_maps_ge (k : Nat) (useSel : Bool) (m : Module) :
    ∀ (ns : List String) (idC : Nat) (st : MState),
      mapValsGE k st.srcMap → mapValsGE k st.tgtMap → k ≤ idC →
      mapValsGE k (writePorts useSel m ns idC st).2.2.srcMap ∧
      mapValsGE k (writePorts useSel m ns idC st).2.2.tgtMap
  | [], idC, st, hs, ht, hid => ⟨hs, ht⟩
  | n :: ns, idC, st, hs, ht, hid => by
    simp only [writePorts]
    cases he : wireOf m n with
    | none => exact writePorts_maps_ge k useSel m ns idC st hs ht hid
    | some w =>
      by_cases h : useSel && !w.selected
      · simp only [if_pos h]
        exact writePorts_maps_ge k useSel m ns idC st hs ht hid
      · simp only [if_neg h]
        obtain ⟨h1, h2⟩ :=
          updateIndexMap_maps_ge k (sigBitsOfWire m w) idC w.port_input st hs ht hid
        exact writePorts_maps_ge k useSel m ns _ _ h1 h2
          (le_trans hid (Nat.le_add_right idC _))

theorem writeCells_maps_ge (k : Nat) (useSel : Bool) (m : Module) :
    ∀ (cs : List Cell) (idC : Nat) (st : MState),
      mapValsGE k st.srcMap → mapValsGE k st.tgtMap → k ≤ idC →
      mapValsGE k (writeCells useSel m cs idC st).2.2.srcMap ∧
      mapValsGE k (writeCells useSel m cs idC st).2.2.tgtMap
  | [], idC, st, hs, ht, hid => ⟨hs, ht⟩
  | c :: cs, idC, st, hs, ht, hid => by
    simp only [writeCells]
    by_cases h : useSel && !c.selected
    · simp only [if_pos h]
      exact writeCells_maps_ge k useSel m cs idC st hs ht hid
    · simp only [if_neg h]
      obtain ⟨h1, h2⟩ := foldl_processConn_maps_ge k m idC c.connections st hs ht hid
      exact writeCells_maps_ge k useSel m cs (idC + 1) _ h1 h2
        (le_trans hid (Nat.le_succ idC))

/-- Every value in the connectivity maps a process-free module hands back
is at least 2, provided the maps handed in satisfy the same bound (the
node-id counter starts at 2 and only grows). -/
theorem write_module_maps_ge (useSel : Bool) (srcMap tgtMap : IdxMap) (m : Module)
    (h : m.has_processes = false) (hs : mapValsGE 2 srcMap) (ht : mapValsGE 2 tgtMap) :
    mapValsGE 2 (mapsOf (write_module useSel srcMap tgtMap m)).1 ∧
    mapValsGE 2 (mapsOf (write_module useSel srcMap tgtMap m)).2 := by
  rw [write_module_ok useSel srcMap tgtMap m h]
  show mapValsGE 2 (writeWires useSel m m.wires _).2.srcMap ∧
    mapValsGE 2 (writeWires useSel m m.wires _).2.tgtMap
  rw [(writeWires_maps useSel m m.wires _).1, (writeWires_maps useSel m m.wires _).2]
  obtain ⟨h1, h2⟩ := writePorts_maps_ge 2 useSel m m.ports 2
    ⟨[], 2, srcMap, tgtMap⟩ hs ht (le_refl 2)
  have hid2 : 2 ≤ (writePorts useSel m m.ports 2 ⟨[], 2, srcMap, tgtMap⟩).2.1 := by
    rw [(writePorts_proj useSel m m.ports 2 _).2]
    exact portsEnd_ge useSel m m.ports 2
  exact writeCells_maps_ge 2 useSel m m.cells _ _ h1 h2 hid2

/-- From any reachable table, looking a constant up (or assigning it) can
only produce its fixed token. -/
theorem assignBit_const_token (s : SigIds) (ctr : Nat)
    (hconst : ∀ c, lookupId s (.const c) = none ∨
      lookupId s (.const c) = some (tokenOfState c)) (c : BState) :
    (assignBit (.const c) s ctr).1 = tokenOfState c := by
  unfold assignBit
  cases hl : lookupId s (.const c) with
  | none => rfl
  | some i =>
    rcases hconst c with h1 | h1
    · rw [hl] at h1; cases h1
    · rw [hl] at h1
      exact Option.some.inj h1

theorem nodeIds_nodeLines (ls : List Line) : nodeIds (nodeLines ls) = nodeIds ls := by
  induction ls with
  | nil => rfl
  | cons l ls ih =>
    cases l <;>
      simp only [nodeLines, nodeIds, List.filter_cons, List.filterMap_cons] <;>
      simpa [nodeLines, nodeIds] using ih

/-! ### The claims -/

/-- Claim C6: the two configuration flags `aig_mode` (`includeAigModels`)
and `compat_int_mode` (`compatIntMode`) are accepted at construction and
never influence any emitted byte: for every design and selection setting,
`write_design` produces identical lines, identical rendered text and the
same error outcome for all combinations of the two flags, and supplying
them is never an error. -/
theorem gml_C6 (d : Design) (sel a1 c1 a2 c2 : Bool) :
    write_design ⟨sel, a1, c1⟩ d = write_design ⟨sel, a2, c2⟩ d ∧
    renderOut (write_design ⟨sel, a1, c1⟩ d).1 =
      renderOut (write_design ⟨sel, a2, c2⟩ d).1 :=
  ⟨rfl, rfl⟩

/-- Claim C5: a module containing process constructs makes `write_module`
fail fatally with the `log_error` message, and no node or edge record of
that module reaches the output (the design-level loop emits nothing for
it); a process-free module never fails. -/
theorem gml_C5 :
    (∀ (useSel : Bool) (srcMap tgtMap : IdxMap) (m : Module), m.has_processes = true →
      write_module useSel srcMap tgtMap m = .error (processErrMsg m) ∧
      ∀ rest, (writeModules useSel (m :: rest) srcMap tgtMap).1 = []) ∧
    (∀ (useSel : Bool) (srcMap tgtMap : IdxMap) (m : Module), m.has_processes = false →
      ∃ r, write_module useSel srcMap tgtMap m = .ok r) := by
  constructor
  · intro useSel s t m h
    have he : write_module useSel s t m = .error (processErrMsg m) := by
      simp [write_module, h]
    refine ⟨he, fun rest => ?_⟩
    simp [writeModules, he]
  · intro useSel s t m h
    exact ⟨_, write_module_ok useSel s t m h⟩

theorem gml_C5_witness :
    (write_module false [] [] modProc = .error (processErrMsg modProc) ∧
      ∀ rest, (writeModules false (modProc :: rest) [] []).1 = []) ∧
    ∃ r, write_module false [] [] modB = .ok r :=
  ⟨gml_C5.1 false [] [] modProc rfl, gml_C5.2 false [] [] modB rfl⟩

/-- Claim C1, evaluated at the failing input: the emitted records of a
module are not a function of that module alone, because the
`sourceBitToIdxMap` / `targetBitToIdxMap` connectivity maps are never
cleared between modules.  In the design `[A, B]` (module `A`: one 1-bit
output port `b`; module `B`: one 1-bit input port `p`), module `B`'s
section contains the edge `2 → 2`, joining `B`'s port node with the
target entry recorded under bit identifier 2 while processing `A`;
processing `B` alone emits no edge at all. -/
theorem gml_C1_bug :
    (write_design ⟨false, false, false⟩ designAB).1 =
      [Line.text "graph [\n", Line.text "    multigraph 1\n",
       Line.node 2 "\"b\"" "\"output\"", Line.node 2 "\"p\"" "\"input\"",
       Line.edge 2 2, Line.text "]"] ∧
    (write_design ⟨false, false, false⟩ designB).1 =
      [Line.text "graph [\n", Line.text "    multigraph 1\n",
       Line.node 2 "\"p\"" "\"input\"", Line.text "]"] ∧
    edgePairs (write_design ⟨false, false, false⟩ designAB).1 = [(2, 2)] ∧
    edgePairs (write_design ⟨false, false, false⟩ designB).1 = [] :=
  ⟨rfl, rfl, rfl, rfl⟩

/-- Claim C2 counterexample: in `mod2bit` (one selected 2-bit input port
`a`, then one selected cell `c`) the port node receives id 2 and the cell
node receives id 4, not 3 — node ids are not assigned "each new node the
next integer after the previously assigned one". -/
theorem gml_C2_counterexample :
    nodeIds (linesOf (write_module false [] [] mod2bit)) = [2, 4] ∧
    ¬ idsConsecutive (nodeIds (linesOf (write_module false [] [] mod2bit))) := by
  have h1 : nodeIds (linesOf (write_module false [] [] mod2bit)) = [2, 4] := rfl
  refine ⟨h1, ?_⟩
  rw [h1]
  simp [idsConsecutive]

/-- Claim C2 (amended): node ids are drawn from a single shared counter
starting at 2, with one node per selected (resolvable) port followed by
one node per selected cell, in that order; each port node takes the
current counter value and advances the counter by the port wire's bit
width, and each cell node takes the current counter value and advances it
by 1 — so ids are strictly increasing but consecutive only when every
port is one bit wide. -/
theorem gml_C2_amended (useSel : Bool) (srcMap tgtMap : IdxMap) (m : Module)
    (h : m.has_processes = false) :
    nodeLines (linesOf (write_module useSel srcMap tgtMap m)) =
      portNodesFrom useSel m 2 m.ports ++
        cellNodesFrom useSel (portsEnd useSel m 2 m.ports) m.cells :=
  write_module_nodes useSel srcMap tgtMap m h

theorem gml_C2_amended_witness :
    nodeLines (linesOf (write_module false [] [] mod2bit)) =
      portNodesFrom false mod2bit 2 mod2bit.ports ++
        cellNodesFrom false (portsEnd false mod2bit 2 mod2bit.ports) mod2bit.cells :=
  gml_C2_amended false [] [] mod2bit rfl

/-- Claim C3: for every process-free module all of whose wires are at
least one bit wide, the node ids emitted for the module are pairwise
distinct, all at least 2, and every port node id is strictly smaller than
every cell node id. -/
theorem gml_C3 (useSel : Bool) (srcMap tgtMap : IdxMap) (m : Module)
    (h : m.has_processes = false) (hw : ∀ w ∈ m.wires, 1 ≤ w.width) :
    List.Pairwise (· ≠ ·) (nodeIds (linesOf (write_module useSel srcMap tgtMap m))) ∧
    (∀ i ∈ nodeIds (linesOf (write_module useSel srcMap tgtMap m)), 2 ≤ i) ∧
    (∀ p ∈ nodeIds (portNodesFrom useSel m 2 m.ports),
     ∀ c ∈ nodeIds (cellNodesFrom useSel (portsEnd useSel m 2 m.ports) m.cells),
       p < c) := by
  have hids : nodeIds (linesOf (write_module useSel srcMap tgtMap m)) =
      nodeIds (portNodesFrom useSel m 2 m.ports) ++
        nodeIds (cellNodesFrom useSel (portsEnd useSel m 2 m.ports) m.cells) := by
    rw [← nodeIds_nodeLines, write_module_nodes useSel srcMap tgtMap m h, nodeIds_append]
  obtain ⟨hp1, hp2⟩ := portNodes_ids_bounds useSel m hw m.ports 2
  obtain ⟨hc1, hc2⟩ := cellNodes_ids_bounds useSel m.cells (portsEnd useSel m 2 m.ports)
  have hlt : ∀ p ∈ nodeIds (portNodesFrom useSel m 2 m.ports),
      ∀ c ∈ nodeIds (cellNodesFrom useSel (portsEnd useSel m 2 m.ports) m.cells), p < c :=
    fun p hp c hc => lt_of_lt_of_le (hp2 p hp).2 (hc2 c hc)
  refine ⟨?_, ?_, hlt⟩
  · rw [hids]
    refine List.pairwise_append.mpr ⟨hp1.imp ne_of_lt, hc1.imp ne_of_lt, ?_⟩
    exact fun p hp c hc => ne_of_lt (hlt p hp c hc)
  · rw [hids]
    intro i hi
    rcases List.mem_append.mp hi with h1 | h1
    · exact (hp2 i h1).1
    · exact le_trans (portsEnd_ge useSel m m.ports 2) (hc2 i h1)

/-- Claim C4: during edge emission for a wire a candidate pair is skipped
exactly when it equals the immediately previously emitted pair (the slot
holds the last emitted pair, or `(0,0)` before the first emission); a bit
with recorded sources `[A, B]` and targets `[X, X]` emits exactly `(A,X)`
then `(B,X)`; and the same pair recurring non-consecutively — interleaved
with a different pair, or on a later bit — is emitted again. -/
theorem gml_C4 :
    (∀ (cands : List (Nat × Nat)) (i : Nat) (h : i < cands.length),
      (emitList (cands.take (i + 1)) = emitList (cands.take i)) ↔
        cands[i] = emitPrev (cands.take i)) ∧
    (∀ l, emitPrev l = (emitList l).getLast?.getD (0, 0)) ∧
    (∀ (src tgt : IdxMap) (bid : Ident) (A B X : Nat),
      A ≠ B → 2 ≤ A → 2 ≤ B → 2 ≤ X →
      mapGet src bid = [A, B] → mapGet tgt bid = [X, X] →
      wireEdges src tgt [bid] = [(A, X), (B, X)]) ∧
    emitList [(2, 4), (2, 5), (2, 4)] = [(2, 4), (2, 5), (2, 4)] ∧
    wireEdges demoSrc demoTgt [.intId 7, .intId 8] = [(2, 4), (2, 5), (2, 4)] := by
  refine ⟨emit_skip_iff, emitPrev_eq_getLast, ?_, rfl, rfl⟩
  intro src tgt bid A B X hAB hA hB hX hsrc htgt
  have hc : wireCands src tgt [bid] = [(A, X), (A, X), (B, X), (B, X)] := by
    simp [wireCands, hsrc, htgt]
  unfold wireEdges
  rw [hc]
  unfold emitList
  have h1 : ((A, X) : Nat × Nat) ≠ (0, 0) := by
    intro hh
    have := congrArg Prod.fst hh
    simp at this
    omega
  have h2 : ((B, X) : Nat × Nat) ≠ (A, X) := by
    intro hh
    have := congrArg Prod.fst hh
    simp at this
    exact hAB this.symm
  rw [foldl_emitStep_cons, if_neg h1, foldl_emitStep_cons, if_pos rfl,
    foldl_emitStep_cons, if_neg h2, foldl_emitStep_cons, if_pos rfl]
  rfl

theorem gml_C4_witness : wireEdges c4Src c4Tgt [.intId 3] = [(5, 9), (6, 9)] :=
  gml_C4.2.2.1 c4Src c4Tgt (.intId 3) 5 6 9 (by decide) (by decide) (by decide)
    (by decide) rfl rfl

/-- Claim C7: a constant bit, whenever it is assigned an identifier from
any reachable table state (i.e. after any traversal order), receives its
fixed token — `"0"`, `"1"`, `"z"`, `"x"` for logic-0, logic-1,
high-impedance and undefined respectively — and a fixed token is never an
integer identifier. -/
theorem gml_C7 :
    (∀ (l : List SigBit) (c : BState),
      (assignBit (.const c) (assignAll l).1 (assignAll l).2).1 = tokenOfState c) ∧
    tokenOfState .s0 = .constTok "0" ∧ tokenOfState .s1 = .constTok "1" ∧
    tokenOfState .sz = .constTok "z" ∧ tokenOfState .sx = .constTok "x" ∧
    (∀ (c : BState) (n : Nat), tokenOfState c ≠ .intId n) := by
  refine ⟨?_, rfl, rfl, rfl, rfl, tokenOfState_ne_intId⟩
  intro l c
  exact assignBit_const_token _ _ (assignAll_inv l).2.1 c

/-- Claim C8: after any traversal, no non-constant bit holds an integer
identifier below 2, two distinct canonical bits never hold the same
integer identifier, and an identifier once assigned is stable under any
further traversal (later encounters return the cached value). -/
theorem gml_C8 (l : List SigBit) :
    (∀ (b : SigBit) (n : Nat), lookupId (assignAll l).1 b = some (.intId n) → 2 ≤ n) ∧
    (∀ (b1 b2 : SigBit) (n : Nat), lookupId (assignAll l).1 b1 = some (.intId n) →
      lookupId (assignAll l).1 b2 = some (.intId n) → b1 = b2) ∧
    (∀ (l2 : List SigBit) (b : SigBit) (i : Ident), lookupId (assignAll l).1 b = some i →
      lookupId (assignAll (l ++ l2)).1 b = some i) := by
  obtain ⟨hc2, hconst, hrange, hinj⟩ := assignAll_inv l
  refine ⟨fun b n h => (hrange b n h).1, hinj, ?_⟩
  intro l2 b i h
  rw [assignAll_append]
  exact assignFold_persist l2 (assignAll l).1 (assignAll l).2 b i h

theorem gml_C8_witness :
    2 ≤ 2 ∧
    lookupId (assignAll ([SigBit.bitOf "a" 0] ++ [SigBit.bitOf "b" 0])).1
      (SigBit.bitOf "a" 0) = some (.intId 2) :=
  ⟨(gml_C8 [SigBit.bitOf "a" 0]).1 (SigBit.bitOf "a" 0) 2 rfl,
   (gml_C8 [SigBit.bitOf "a" 0]).2.2 [SigBit.bitOf "b" 0] (SigBit.bitOf "a" 0)
     (.intId 2) rfl⟩

/-- Claim C9: every edge record a process-free module emits has its source
taken from the `sourcesOf` list and its target from the `targetsOf` list
recorded (in the module's final connectivity maps, which the wire loop
does not modify) under some bit identifier — never swapped. -/
theorem gml_C9 (useSel : Bool) (srcMap tgtMap : IdxMap) (m : Module) (a b : Nat)
    (h : m.has_processes = false)
    (he : Line.edge a b ∈ linesOf (write_module useSel srcMap tgtMap m)) :
    ∃ bid, a ∈ mapGet (mapsOf (write_module useSel srcMap tgtMap m)).1 bid ∧
      b ∈ mapGet (mapsOf (write_module useSel srcMap tgtMap m)).2 bid := by
  rw [write_module_ok useSel srcMap tgtMap m h] at he ⊢
  simp only [linesOf] at he
  simp only [mapsOf]
  rcases List.mem_append.mp he with h12 | h3
  · rcases List.mem_append.mp h12 with h1 | h2
    · rw [(writePorts_proj useSel m m.ports 2 _).1] at h1
      obtain ⟨i, lab, tok, hne⟩ := portNodes_shape useSel m m.ports 2 _ h1
      exact Line.noConfusion hne
    · rw [writeCells_proj] at h2
      obtain ⟨i, lab, tok, hne⟩ := cellNodes_shape useSel m.cells _ _ h2
      exact Line.noConfusion hne
  · obtain ⟨a', b', bid, heq, hsm, htm⟩ := writeWires_lines useSel m m.wires _ _ h3
    injection heq with ha hb
    subst ha
    subst hb
    refine ⟨bid, ?_, ?_⟩
    · rw [(writeWires_maps useSel m m.wires _).1]
      exact hsm
    · rw [(writeWires_maps useSel m m.wires _).2]
      exact htm

theorem gml_C9_witness :
    ∃ bid, 2 ∈ mapGet (mapsOf (write_module false [] [] modAlias)).1 bid ∧
      3 ∈ mapGet (mapsOf (write_module false [] [] modAlias)).2 bid :=
  gml_C9 false [] [] modAlias 2 3 rfl (by decide)

/-- Claim C10: the suppression slot is re-initialised to `(0,0)` for each
wire, and `(0,0)` can never equal a real candidate because every id
recorded in the connectivity maps of a (process-free) module is at least
2; hence the first candidate pair of every wire is always emitted — in
`modAlias`, where both wires canonicalise to the same bit, the identical
pair `(2,3)` is emitted once per wire, straddling the wire boundary,
rather than suppressed. -/
theorem gml_C10 :
    (∀ (src tgt : IdxMap) (ids : List Ident) (c : Nat × Nat) (cs : List (Nat × Nat)),
      wireCands src tgt ids = c :: cs → 2 ≤ c.1 →
      (wireEdges src tgt ids).head? = some c) ∧
    edgePairs (linesOf (write_module false [] [] modAlias)) = [(2, 3), (2, 3)] ∧
    (∀ (useSel : Bool) (srcMap tgtMap : IdxMap) (m : Module),
      m.has_processes = false → mapValsGE 2 srcMap → mapValsGE 2 tgtMap →
      mapValsGE 2 (mapsOf (write_module useSel srcMap tgtMap m)).1 ∧
      mapValsGE 2 (mapsOf (write_module useSel srcMap tgtMap m)).2) := by
  refine ⟨?_, rfl, fun u s t m h hs ht => write_module_maps_ge u s t m h hs ht⟩
  intro src tgt ids c cs hc h2
  unfold wireEdges
  rw [hc]
  refine emitList_cons_head c cs ?_
  intro hh
  rw [hh] at h2
  simp at h2

theorem gml_C10_witness :
    (wireEdges c10Src c10Tgt [.intId 5]).head? = some (2, 3) :=
  gml_C10.1 c10Src c10Tgt [.intId 5] (2, 3) [] rfl (by decide)

theorem gml_C3_witness :
    List.Pairwise (· ≠ ·) (nodeIds (linesOf (write_module false [] [] mod2bit))) ∧
    (∀ i ∈ nodeIds (linesOf (write_module false [] [] mod2bit)), 2 ≤ i) ∧
    (∀ p ∈ nodeIds (portNodesFrom false mod2bit 2 mod2bit.ports),
     ∀ c ∈ nodeIds (cellNodesFrom false (portsEnd false mod2bit 2 mod2bit.ports) mod2bit.cells),
       p < c) :=
  gml_C3 false [] [] mod2bit rfl (by decide)

end Gml
